import Mathlib

/-!
Shallow embedding of the casky storage engine (src/src/casky.c, src/src/utils.c,
src/src/crc.c, src/src/casky.h, src/src/utils.h).

Byte strings (C `char *` keys/values and raw file contents) are modelled as
`List Nat`, one element per byte.  Machine integers are `Nat` with an explicit
`% 2^w` wherever the C code can overflow.  File handles and the append-only log
are modelled as the list of bytes written so far; an append that can fail
(`casky_write_data_to_file` returning -1) is driven by an explicit `appendOk`
flag.  `time(NULL)` is passed in as a `now : Nat` parameter.  The process-wide
`casky_errno` and the statistics singleton are threaded explicitly.
-/

set_option maxRecDepth 16384

namespace Casky

/-! ## CRC codec (src/src/crc.c) -/

/-- One step of the table generator: `c = (c & 1) ? 0xEDB88320 ^ (c >> 1) : (c >> 1)`
(crc.c line 12). -/
def crcStep (c : Nat) : Nat :=
  if c % 2 = 1 then Nat.xor 0xEDB88320 (c / 2) else c / 2

/-- Entry `crc32_table[i]`: eight `crcStep` iterations starting from `i` (crc.c lines 9-14). -/
def crc32Table (i : Nat) : Nat :=
  crcStep (crcStep (crcStep (crcStep (crcStep (crcStep (crcStep (crcStep i)))))))

/-- One byte of the CRC loop: `crc = crc32_table[(crc ^ b) & 0xFF] ^ (crc >> 8)`
(crc.c line 40). -/
def crc32Update (crc b : Nat) : Nat :=
  Nat.xor (crc32Table (Nat.xor crc b % 256)) (crc / 256)

/-- Function `casky_crc32` (crc.c lines 34-42): init `0xFFFFFFFF`, fold the bytes, final xor. -/
def casky_crc32 (buf : List Nat) : Nat :=
  Nat.xor (buf.foldl crc32Update 0xFFFFFFFF) 0xFFFFFFFF

/-! ## Hasher (src/src/utils.c lines 82-92) -/

/-- Function `casky_djb2_hash_xor`: `hash = (hash * 33) ^ c` over the key's bytes, starting
from 5381; `unsigned long` is 64 bits, so the product is reduced mod `2^64`. -/
def casky_djb2_hash_xor (s : List Nat) : Nat :=
  s.foldl (fun h c => Nat.xor (h * 33 % 2 ^ 64) c) 5381

/-! ## Little-endian integer serialization

`casky_write_data_to_file` copies `uint32_t`/`uint64_t` fields byte by byte
(`memcpy`/`fwrite` of the in-memory representation); the target platforms are
little-endian, which is also what the on-disk format prescribes. -/

def u32LE (n : Nat) : List Nat :=
  [n % 256, n / 256 % 256, n / 65536 % 256, n / 16777216 % 256]

def u64LE (n : Nat) : List Nat :=
  [n % 256, n / 2 ^ 8 % 256, n / 2 ^ 16 % 256, n / 2 ^ 24 % 256,
   n / 2 ^ 32 % 256, n / 2 ^ 40 % 256, n / 2 ^ 48 % 256, n / 2 ^ 56 % 256]

/-- Recombine a little-endian byte list into a number. -/
def leVal (bs : List Nat) : Nat :=
  bs.foldr (fun b acc => b + 256 * acc) 0

/-- Read `fread(buf, 1, k, f)`: succeeds only if `k` bytes are available; returns the
bytes read and the remaining stream. -/
def readBytes (k : Nat) (bs : List Nat) : Option (List Nat × List Nat) :=
  if k ≤ bs.length then some (bs.take k, bs.drop k) else none

/-- Read `fread(&x, 4, 1, f)` of a `uint32_t`. -/
def readU32 (bs : List Nat) : Option (Nat × List Nat) :=
  match readBytes 4 bs with
  | some (b, rest) => some (leVal b, rest)
  | none => none

/-- Read `fread(&x, 8, 1, f)` of a `uint64_t`. -/
def readU64 (bs : List Nat) : Option (Nat × List Nat) :=
  match readBytes 8 bs with
  | some (b, rest) => some (leVal b, rest)
  | none => none

/-! ## Data model (src/src/casky.h) -/

/-- The C `struct Entry` (casky.h lines 48-58). -/
structure Entry where
  key : List Nat
  value : List Nat
  timestamp : Nat
  expiration_ts : Nat
deriving DecidableEq, Repr

/-- The C `struct KeyDir` (casky.h lines 65-79).  The bucket array `root` is a list of
chains; `filename`, the `FILE*` handle and the mutex live at the facade level. -/
structure KeyDir where
  num_entries : Nat
  num_buckets : Nat
  root : List (List Entry)
  corrupted_dir : Bool
deriving DecidableEq, Repr

/-- The C `casky_stat_t` (utils.h lines 4-13). -/
structure CaskyStat where
  total_keys : Nat
  memory_bytes : Nat
  num_puts : Nat
  num_gets : Nat
  num_deletes : Nat
deriving DecidableEq, Repr

/-- The C `CaskyError` enum (casky.h lines 81-90). -/
inductive CaskyError where
  | ok
  | invalidPath
  | invalidPointer
  | ioErr
  | memErr
  | corrupt
  | invalidKey
  | keyNotFound
deriving DecidableEq, Repr

/-! ## Statistics (src/src/utils.c lines 338-386) -/

/-- Function `casky_stats_init` (utils.c lines 338-347). -/
def statsInit : CaskyStat := ⟨0, 0, 0, 0, 0⟩

/-- Function `casky_stats_inc_put` (utils.c lines 349-354). -/
def casky_stats_inc_put (bytes : Nat) (s : CaskyStat) : CaskyStat :=
  { s with num_puts := s.num_puts + 1, memory_bytes := s.memory_bytes + bytes }

/-- Function `casky_stats_inc_delete` (utils.c lines 356-363): the decrement is applied
only when `bytes > 0 && memory_bytes >= bytes`, otherwise the counter is left
unchanged. -/
def casky_stats_inc_delete (bytes : Nat) (s : CaskyStat) : CaskyStat :=
  { s with
    num_deletes := s.num_deletes + 1,
    memory_bytes :=
      if 0 < bytes ∧ bytes ≤ s.memory_bytes then s.memory_bytes - bytes
      else s.memory_bytes }

/-- Function `casky_stats_inc_entries` (utils.c lines 371-375). -/
def casky_stats_inc_entries (s : CaskyStat) : CaskyStat :=
  { s with total_keys := s.total_keys + 1 }

/-- Function `casky_stats_dec_entries` (utils.c lines 376-381). -/
def casky_stats_dec_entries (s : CaskyStat) : CaskyStat :=
  { s with total_keys := if 0 < s.total_keys then s.total_keys - 1 else s.total_keys }

/-- Function `casky_stats_inc_get` (utils.c lines 382-386). -/
def casky_stats_inc_get (s : CaskyStat) : CaskyStat :=
  { s with num_gets := s.num_gets + 1 }

/-! ## Keydir index (src/src/utils.c) -/

/-- Index `hash(key) % kd->num_buckets` (utils.c lines 195-196 and friends). -/
def bucketIndex (kd : KeyDir) (key : List Nat) : Nat :=
  casky_djb2_hash_xor key % kd.num_buckets

/-- The chain `kd->root[bucket_index]` for `key`. -/
def kdChain (kd : KeyDir) (key : List Nat) : List Entry :=
  kd.root.getD (bucketIndex kd key) []

/-- The chain walk of `casky_put_in_memory` (utils.c lines 198-232): if the key
matches an existing node, its value and timestamps are replaced in place (the
`Bool` is `true`); otherwise a new node is linked at the end of the chain. -/
def putChain (key value : List Nat) (ts exp : Nat) :
    List Entry → List Entry × Bool
  | [] => ([⟨key, value, ts, exp⟩], false)
  | e :: rest =>
    if key = e.key then
      ({ e with value := value, timestamp := ts, expiration_ts := exp } :: rest, true)
    else
      let r := putChain key value ts exp rest
      (e :: r.1, r.2)

/-- Function `casky_put_in_memory` (utils.c lines 192-235).  On an in-place update the
stats are bumped by `strlen(key)+strlen(new value)`; on an insert
`casky_stats_inc_entries` runs first, then `casky_stats_inc_put`, and
`num_entries` is incremented. -/
def casky_put_in_memory (kd : KeyDir) (s : CaskyStat) (key value : List Nat)
    (ts exp : Nat) : KeyDir × CaskyStat :=
  let i := bucketIndex kd key
  let r := putChain key value ts exp (kd.root.getD i [])
  let kd' := { kd with
    root := kd.root.set i r.1,
    num_entries := if r.2 then kd.num_entries else kd.num_entries + 1 }
  let s' :=
    if r.2 then casky_stats_inc_put (key.length + value.length) s
    else casky_stats_inc_put (key.length + value.length) (casky_stats_inc_entries s)
  (kd', s')

/-- The chain walk of `casky_delete_from_memory` (utils.c lines 254-277):
unlink the first node whose key matches, returning it. -/
def deleteChain (key : List Nat) : List Entry → List Entry × Option Entry
  | [] => ([], none)
  | e :: rest =>
    if e.key = key then (rest, some e)
    else
      let r := deleteChain key rest
      (e :: r.1, r.2)

/-- Function `casky_delete_from_memory` (utils.c lines 247-280).  On a hit the stats are
decremented by `strlen(node->entry.key) + strlen(node->entry.value)` of the
removed node, `total_keys` is decremented, and `num_entries` is decremented
(the keydir invariant keeps `num_entries` positive whenever a node is found,
so the `Nat` subtraction matches the `size_t` one). -/
def casky_delete_from_memory (kd : KeyDir) (s : CaskyStat) (key : List Nat) :
    KeyDir × CaskyStat × Bool :=
  let i := bucketIndex kd key
  match deleteChain key (kd.root.getD i []) with
  | (chain, some e) =>
      ({ kd with root := kd.root.set i chain, num_entries := kd.num_entries - 1 },
       casky_stats_dec_entries
         (casky_stats_inc_delete (e.key.length + e.value.length) s),
       true)
  | (_, none) => (kd, s, false)

/-- The `while (node)` loop of `casky_get_from_memory` (utils.c lines 311-324).
On a match with an expired entry the code bumps the delete stats, calls
`casky_delete_from_memory` (which bumps them again) and keeps walking from the
old node's `next` pointer; on a live match it returns a fresh copy of the
value. -/
def getLoop (key : List Nat) (now : Nat) :
    KeyDir → CaskyStat → List Entry →
    Option (List Nat) × KeyDir × CaskyStat × CaskyError
  | kd, s, [] => (none, kd, s, .keyNotFound)
  | kd, s, e :: rest =>
    if key = e.key then
      if 0 < e.expiration_ts ∧ e.expiration_ts ≤ now then
        let s1 := casky_stats_inc_delete (e.key.length + e.value.length) s
        let r := casky_delete_from_memory kd s1 key
        getLoop key now r.1 r.2.1 rest
      else (some e.value, kd, casky_stats_inc_get s, .ok)
    else getLoop key now kd s rest

/-- Function `casky_get_from_memory` (utils.c lines 294-328), with null checks handled at
the facade. -/
def casky_get_from_memory (kd : KeyDir) (s : CaskyStat) (key : List Nat)
    (now : Nat) : Option (List Nat) × KeyDir × CaskyStat × CaskyError :=
  getLoop key now kd s (kdChain kd key)

/-! ## Expiration sweep (src/src/casky.c lines 444-486) -/

/-- The per-bucket `while (node)` loop of `casky_expire`: every node with
`expiration_ts > 0 && expiration_ts <= now` is unlinked and its delete stats
bumped once; the result carries the surviving chain, the stats, and the number
of removed nodes (the C code decrements `num_entries` per removal). -/
def expireChain (now : Nat) : List Entry → CaskyStat → List Entry × CaskyStat × Nat
  | [], s => ([], s, 0)
  | e :: rest, s =>
    if 0 < e.expiration_ts ∧ e.expiration_ts ≤ now then
      let r := expireChain now rest
        (casky_stats_inc_delete (e.key.length + e.value.length) s)
      (r.1, r.2.1, r.2.2 + 1)
    else
      let r := expireChain now rest s
      (e :: r.1, r.2.1, r.2.2)

/-- Fold `expireChain` over all buckets, left to right. -/
def expireBuckets (now : Nat) : List (List Entry) → CaskyStat →
    List (List Entry) × CaskyStat × Nat
  | [], s => ([], s, 0)
  | chain :: rest, s =>
    let r := expireChain now chain s
    let r' := expireBuckets now rest r.2.1
    (r.1 :: r'.1, r'.2.1, r.2.2 + r'.2.2)

/-- The keydir effect of `casky_expire` (casky.c lines 444-486); the lock is
handled at the facade level. -/
def casky_expire_mem (kd : KeyDir) (s : CaskyStat) (now : Nat) : KeyDir × CaskyStat :=
  let r := expireBuckets now kd.root s
  ({ kd with root := r.1, num_entries := kd.num_entries - r.2.2 }, r.2.1)

/-! ## Record codec (src/src/utils.c lines 119-176) -/

/-- Length `value ? strlen(value) : 0` (utils.c line 139), truncated to `uint32_t`. -/
def valueLen (value : Option (List Nat)) : Nat :=
  (match value with | some v => v.length | none => 0) % 2 ^ 32

/-- The temporary buffer `buf` over which the CRC is computed (utils.c lines
141-157): fields 2-7 of the record.  `memcpy(p, value, value_len)` runs
whenever `value` is non-null, copying `value_len` bytes. -/
def recordBody (key : List Nat) (value : Option (List Nat)) (ts exp : Nat) :
    List Nat :=
  u64LE ts ++ u64LE exp ++ u32LE (key.length % 2 ^ 32) ++ u32LE (valueLen value) ++
    (key.take (key.length % 2 ^ 32)) ++
    (match value with | some v => v.take (valueLen (some v)) | none => [])

/-- The bytes appended by `casky_write_data_to_file` (utils.c lines 158-168):
the CRC of `recordBody`, then the fields re-written one by one; the value bytes
are written only when `value_len > 0`. -/
def casky_write_data_to_file (key : List Nat) (value : Option (List Nat))
    (ts exp : Nat) : List Nat :=
  u32LE (casky_crc32 (recordBody key value ts exp)) ++
    u64LE ts ++ u64LE exp ++ u32LE (key.length % 2 ^ 32) ++ u32LE (valueLen value) ++
    (key.take (key.length % 2 ^ 32)) ++
    (if 0 < valueLen value then (value.getD []).take (valueLen value) else [])

/-! ## Recovery (src/src/casky.c lines 62-101) -/

/-- One iteration of the load loop of `casky_init_kd_from_file` (casky.c lines
64-99): read the five header fields and the key/value payloads (`none` = a
short read, which breaks the loop); the stored CRC is read (line 68) but never
compared against a recomputed one.  A record with `value_len == 0` replays a
delete; a PUT record is inserted only when `expires == 0 || expires > now`. -/
def loadStep (kd : KeyDir) (s : CaskyStat) (now : Nat) (bs : List Nat) :
    Option (KeyDir × CaskyStat × List Nat) :=
  match readU32 bs with
  | none => none
  | some (_crc, bs1) =>
    match readU64 bs1 with
    | none => none
    | some (ts, bs2) =>
      match readU64 bs2 with
      | none => none
      | some (expires, bs3) =>
        match readU32 bs3 with
        | none => none
        | some (key_len, bs4) =>
          match readU32 bs4 with
          | none => none
          | some (value_len, bs5) =>
            match readBytes key_len bs5 with
            | none => none
            | some (key, bs6) =>
              if value_len = 0 then
                let r := casky_delete_from_memory kd s key
                some (r.1, r.2.1, bs6)
              else
                match readBytes value_len bs6 with
                | none => none
                | some (value, bs7) =>
                  if expires = 0 ∨ now < expires then
                    let r := casky_put_in_memory kd s key value ts expires
                    some (r.1, r.2, bs7)
                  else
                    some (kd, s, bs7)

/-- The `while (!feof(f))` loop, fuelled: every successful `loadStep` consumes
at least the 28 header bytes, so `bytes.length + 1` units of fuel always
suffice. -/
def loadLoop : Nat → KeyDir → CaskyStat → Nat → List Nat → KeyDir × CaskyStat
  | 0, kd, s, _, _ => (kd, s)
  | fuel + 1, kd, s, now, bs =>
    match loadStep kd s now bs with
    | none => (kd, s)
    | some r => loadLoop fuel r.1 r.2.1 now r.2.2

/-- A freshly allocated keydir (casky.c lines 34-57): `calloc` zeroes
`num_entries` and `corrupted_dir`; `num_buckets = CASKY_INITIAL_BUCKETS_NUM`. -/
def emptyKd (nb : Nat) : KeyDir :=
  ⟨0, nb, List.replicate nb [], false⟩

/-- Function `casky_open` (casky.c lines 154-161) on a log whose contents are `bs`:
statistics are initialized once, the keydir is allocated with 1024 buckets and
the records are replayed by the load loop; the function ends with
`casky_errno = CASKY_OK` (line 119) and never touches `corrupted_dir`. -/
def casky_open (bs : List Nat) (now : Nat) : KeyDir × CaskyStat × CaskyError :=
  let r := loadLoop (bs.length + 1) (emptyKd 1024) statsInit now bs
  (r.1, r.2, .ok)

/-! ## Engine facade (src/src/casky.c) with the THREAD_SAFE lock

`lockHeld` counts how many times the engine mutex is currently held by the
operation in flight: `LOCK(kd)` adds one, `UNLOCK(kd)` subtracts one.  `log`
is the byte content of the append-only file; `appendOk` models whether
`casky_write_data_to_file` succeeds (on failure it appends nothing). -/

structure Engine where
  kd : KeyDir
  stats : CaskyStat
  log : List Nat
  lockHeld : Nat
  errno : CaskyError
deriving DecidableEq, Repr

/-- Function `casky_put` (casky.c lines 235-260).  `key = none` / `value = none` model
NULL pointers.  The in-memory update runs before the append; a failing append
sets the error to I/O and returns -1 after unlocking. -/
def casky_put (e : Engine) (key value : Option (List Nat)) (ttl : Nat)
    (now : Nat) (appendOk : Bool) : Int × Engine :=
  match key, value with
  | some k, some v =>
    let e1 := { e with lockHeld := e.lockHeld + 1 }
    let ts := now
    let exp := if 0 < ttl then now + ttl else 0
    let r := casky_put_in_memory e1.kd e1.stats k v ts exp
    let e2 := { e1 with kd := r.1, stats := r.2 }
    if appendOk then
      (0, { e2 with
        log := e2.log ++ casky_write_data_to_file k (some v) ts exp,
        lockHeld := e2.lockHeld - 1,
        errno := .ok })
    else
      (-1, { e2 with errno := .ioErr, lockHeld := e2.lockHeld - 1 })
  | _, _ => (-1, { e with errno := .invalidKey })

/-- Function `casky_get` (casky.c lines 283-297). -/
def casky_get (e : Engine) (key : Option (List Nat)) (now : Nat) :
    Option (List Nat) × Engine :=
  match key with
  | none => (none, { e with errno := .invalidKey })
  | some k =>
    let e1 := { e with lockHeld := e.lockHeld + 1 }
    let r := casky_get_from_memory e1.kd e1.stats k now
    (r.1, { e1 with
      kd := r.2.1, stats := r.2.2.1, errno := r.2.2.2,
      lockHeld := e1.lockHeld - 1 })

/-- Function `casky_delete` (casky.c lines 319-350).  When the key is not found the C
code returns -1 at lines 332-335 without reaching any `UNLOCK(kd)`. -/
def casky_delete (e : Engine) (key : Option (List Nat)) (now : Nat)
    (appendOk : Bool) : Int × Engine :=
  match key with
  | none => (-1, { e with errno := .invalidKey })
  | some k =>
    let e1 := { e with lockHeld := e.lockHeld + 1 }
    let r := casky_delete_from_memory e1.kd e1.stats k
    let e2 := { e1 with kd := r.1, stats := r.2.1 }
    if r.2.2 = false then
      (-1, { e2 with errno := .keyNotFound })
    else if appendOk then
      (0, { e2 with
        log := e2.log ++ casky_write_data_to_file k none now 0,
        lockHeld := e2.lockHeld - 1,
        errno := .ok })
    else
      (-1, { e2 with errno := .ioErr, lockHeld := e2.lockHeld - 1 })

/-- The bytes `casky_compact` (casky.c lines 404-427) writes into the temp
file: one record per node of every chain, in bucket order, guarded by
`kd->root && kd->num_entries > 0`. -/
def compactBytes (kd : KeyDir) : List Nat :=
  if 0 < kd.num_entries then
    (kd.root.map (fun chain =>
      (chain.map (fun en =>
        casky_write_data_to_file en.key (some en.value) en.timestamp
          en.expiration_ts)).flatten)).flatten
  else []

/-- Function `casky_compact` (casky.c lines 379-441) on the success path (`renameOk`):
the temp file is renamed over the log and reopened; the in-memory keydir is
untouched. -/
def casky_compact (e : Engine) (renameOk : Bool) : Int × Engine :=
  let e1 := { e with lockHeld := e.lockHeld + 1 }
  if renameOk then
    (0, { e1 with log := compactBytes e1.kd, lockHeld := e1.lockHeld - 1,
                  errno := .ok })
  else
    (-1, { e1 with errno := .ioErr, lockHeld := e1.lockHeld - 1 })

/-- Function `casky_expire` (casky.c lines 444-486) at the facade level. -/
def casky_expire (e : Engine) (now : Nat) : Engine :=
  let e1 := { e with lockHeld := e.lockHeld + 1 }
  let r := casky_expire_mem e1.kd e1.stats now
  { e1 with kd := r.1, stats := r.2, lockHeld := e1.lockHeld - 1 }

/-! ## Parsed view of a log file

Observation functions used to state what a log file "contains": the framing of
§4.3 of the record format, read back field by field. -/

/-- One decoded record: the five header fields plus the payloads. -/
structure RawRecord where
  crc : Nat
  timestamp : Nat
  expiration : Nat
  key_len : Nat
  value_len : Nat
  key : List Nat
  value : List Nat
deriving DecidableEq, Repr

/-- Decode one record off the front of a byte stream. -/
def parseRecord (bs : List Nat) : Option (RawRecord × List Nat) :=
  match readU32 bs with
  | none => none
  | some (crc, bs1) =>
    match readU64 bs1 with
    | none => none
    | some (ts, bs2) =>
      match readU64 bs2 with
      | none => none
      | some (exp, bs3) =>
        match readU32 bs3 with
        | none => none
        | some (key_len, bs4) =>
          match readU32 bs4 with
          | none => none
          | some (value_len, bs5) =>
            match readBytes key_len bs5 with
            | none => none
            | some (key, bs6) =>
              match readBytes value_len bs6 with
              | none => none
              | some (value, bs7) =>
                some (⟨crc, ts, exp, key_len, value_len, key, value⟩, bs7)

/-- Decode records until the stream runs out (fuelled like `loadLoop`). -/
def parseGo : Nat → List Nat → List RawRecord
  | 0, _ => []
  | fuel + 1, bs =>
    match parseRecord bs with
    | none => []
    | some (r, rest) => r :: parseGo fuel rest

/-- All records of a log file. -/
def parseRecords (bs : List Nat) : List RawRecord :=
  parseGo (bs.length + 1) bs

/-! ## Specification-side observation functions and fixtures -/

/-- First entry of a chain whose key matches, i.e. what the chain walks of
`casky_get_from_memory` / `casky_delete_from_memory` land on first. -/
def findEntry (key : List Nat) : List Entry → Option Entry
  | [] => none
  | e :: rest => if key = e.key then some e else findEntry key rest

/-- One application of the `memory_bytes` decrement of
`casky_stats_inc_delete`: subtract `b` when `b > 0 && b ≤ m`, else leave `m`. -/
def guardedDec (b m : Nat) : Nat :=
  if 0 < b ∧ b ≤ m then m - b else m

/-- Structural well-formedness of a keydir: a positive bucket count, a root
array of exactly that many chains, and `num_entries` in sync with the total
node count. -/
def kdSized (kd : KeyDir) : Prop :=
  0 < kd.num_buckets ∧ kd.root.length = kd.num_buckets ∧
    kd.num_entries = (kd.root.map List.length).sum

instance (kd : KeyDir) : Decidable (kdSized kd) := by
  unfold kdSized
  infer_instance

/-- Key-uniqueness of a chain (§3 of the record layout: within a chain at most
one node has a given key). -/
def keysUnique (c : List Entry) : Prop :=
  (c.map (fun en => en.key)).Nodup

instance (c : List Entry) : Decidable (keysUnique c) := by
  unfold keysUnique
  infer_instance

/-- The entries of a keydir whose expiration has passed at `now`. -/
def expiredEntries (kd : KeyDir) (now : Nat) : List Entry :=
  kd.root.flatten.filter
    (fun en => decide (0 < en.expiration_ts ∧ en.expiration_ts ≤ now))

/-- The decoded form of the PUT record `casky_compact` writes for a live
in-memory entry. -/
def entryRecord (en : Entry) : RawRecord :=
  ⟨casky_crc32 (recordBody en.key (some en.value) en.timestamp en.expiration_ts),
   en.timestamp, en.expiration_ts, en.key.length, en.value.length,
   en.key, en.value⟩

/-- One public operation of the engine facade, with all of its inputs (the
clock value and whether the log append succeeds). -/
inductive EngineOp where
  | opPut (k v : List Nat) (ttl now : Nat) (ok : Bool)
  | opDel (k : List Nat) (now : Nat) (ok : Bool)
  | opGet (k : List Nat) (now : Nat)
  | opExpire (now : Nat)
deriving DecidableEq, Repr

/-- Run one facade operation, keeping the engine state. -/
def applyOp (e : Engine) : EngineOp → Engine
  | .opPut k v ttl now ok => (casky_put e (some k) (some v) ttl now ok).2
  | .opDel k now ok => (casky_delete e (some k) now ok).2
  | .opGet k now => (casky_get e (some k) now).2
  | .opExpire now => casky_expire e now

/-- Run a sequence of facade operations. -/
def applyOps (e : Engine) (ops : List EngineOp) : Engine :=
  ops.foldl applyOp e

/-- A freshly opened engine on an empty log, before any operation. -/
def freshEngine : Engine :=
  ⟨emptyKd 1024, statsInit, [], 0, .ok⟩

/-- A log file holding a single PUT record (key "a", value "b", timestamp 1,
no expiration) whose stored CRC field is the correct CRC plus one — i.e. a
record whose computed CRC disagrees with its stored CRC. -/
def corruptLog : List Nat :=
  u32LE (casky_crc32 (recordBody [97] (some [98]) 1 0) + 1) ++
    recordBody [97] (some [98]) 1 0

/-- A well-formed PUT record (key "c", value "d") appended after the corrupt
one, to observe whether the scan stops at the mismatch. -/
def recordAfterCorrupt : List Nat :=
  casky_write_data_to_file [99] (some [100]) 1 0

/-- Keydir and statistics reached from a fresh 4-bucket keydir by
`put("a","x")` with no TTL followed by `put("b","y")` expiring at 5 —
the state just before the expired `get("b")` of the C2 counterexample. -/
def c2State : KeyDir × CaskyStat :=
  let r1 := casky_put_in_memory (emptyKd 4) statsInit [97] [120] 1 0
  casky_put_in_memory r1.1 r1.2 [98] [121] 1 5

/-- A keydir reached by `casky_put(kd, "a", "", 0)`: one live entry whose
value is the empty string. -/
def emptyValueKd : KeyDir :=
  (casky_put_in_memory (emptyKd 1024) statsInit [97] [] 7 0).1

/-! ## Helper lemmas: serialization round trips -/

theorem leVal_u32LE (n : Nat) (h : n < 2 ^ 32) : leVal (u32LE n) = n := by
  simp only [leVal, u32LE, List.foldr]
  omega

theorem leVal_u64LE (n : Nat) (h : n < 2 ^ 64) : leVal (u64LE n) = n := by
  simp only [leVal, u64LE, List.foldr]
  omega

theorem readBytes_exact (l r : List Nat) : readBytes l.length (l ++ r) = some (l, r) := by
  simp [readBytes, List.take_left, List.drop_left]

theorem length_u32LE (n : Nat) : (u32LE n).length = 4 := rfl

theorem length_u64LE (n : Nat) : (u64LE n).length = 8 := rfl

theorem readU32_append (n : Nat) (r : List Nat) (h : n < 2 ^ 32) :
    readU32 (u32LE n ++ r) = some (n, r) := by
  have hb := readBytes_exact (u32LE n) r
  rw [length_u32LE] at hb
  simp [readU32, hb, leVal_u32LE n h]

theorem readU64_append (n : Nat) (r : List Nat) (h : n < 2 ^ 64) :
    readU64 (u64LE n ++ r) = some (n, r) := by
  have hb := readBytes_exact (u64LE n) r
  rw [length_u64LE] at hb
  simp [readU64, hb, leVal_u64LE n h]

/-! ## Helper lemmas: bucket array updates -/

theorem getD_set_self (l : List (List Entry)) (i : Nat) (c : List Entry)
    (h : i < l.length) : (l.set i c).getD i [] = c := by
  simp [List.getD, List.getElem?_set, h]

theorem getD_replicate_nil (n i : Nat) :
    (List.replicate n ([] : List Entry)).getD i [] = [] := by
  rcases Nat.lt_or_ge i n with h | h
  · simp [List.getD, List.getElem?_replicate, h]
  · simp [List.getD, List.getElem?_eq_none, h, List.length_replicate]

theorem sum_length_set (l : List (List Entry)) (i : Nat) (c : List Entry)
    (h : i < l.length) :
    ((l.set i c).map List.length).sum + (l.getD i []).length
      = (l.map List.length).sum + c.length := by
  induction l generalizing i with
  | nil => simp at h
  | cons hd tl ih =>
    cases i with
    | zero =>
      simp [List.getD]
      omega
    | succ j =>
      have hj : j < tl.length := by simpa using h
      have hrec := ih j hj
      simp [List.getD] at hrec ⊢
      omega

/-! ## Helper lemmas: chain walks -/

theorem findEntry_append_nomatch (key : List Nat) (pre rest : List Entry)
    (h : ∀ x ∈ pre, key ≠ x.key) :
    findEntry key (pre ++ rest) = findEntry key rest := by
  induction pre with
  | nil => rfl
  | cons a l ih =>
    have ha : key ≠ a.key := h a (by simp)
    simp only [List.cons_append, findEntry, if_neg ha]
    exact ih (fun x hx => h x (by simp [hx]))

theorem findEntry_eq_none (key : List Nat) (c : List Entry)
    (h : ∀ x ∈ c, key ≠ x.key) : findEntry key c = none := by
  have := findEntry_append_nomatch key c [] h
  simpa [findEntry] using this

theorem findEntry_decomp (key : List Nat) (c : List Entry) (e : Entry)
    (h : findEntry key c = some e) :
    ∃ pre rest, c = pre ++ e :: rest ∧ (∀ x ∈ pre, key ≠ x.key) ∧ key = e.key := by
  induction c with
  | nil => simp [findEntry] at h
  | cons a l ih =>
    by_cases hk : key = a.key
    · simp only [findEntry, if_pos hk, Option.some_inj] at h
      subst h
      exact ⟨[], l, by simp, by simp, hk⟩
    · simp only [findEntry, if_neg hk] at h
      obtain ⟨pre, rest, hc, hpre, hke⟩ := ih h
      exact ⟨a :: pre, rest, by simp [hc],
        by
          intro x hx
          rcases List.mem_cons.mp hx with hx | hx
          · subst hx; exact hk
          · exact hpre x hx,
        hke⟩

theorem getLoop_append_nomatch (key : List Nat) (now : Nat) (kd : KeyDir)
    (s : CaskyStat) (pre rest : List Entry) (h : ∀ x ∈ pre, key ≠ x.key) :
    getLoop key now kd s (pre ++ rest) = getLoop key now kd s rest := by
  induction pre with
  | nil => rfl
  | cons a l ih =>
    have ha : key ≠ a.key := h a (by simp)
    simp only [List.cons_append, getLoop, if_neg ha]
    exact ih (fun x hx => h x (by simp [hx]))

theorem getLoop_nomatch (key : List Nat) (now : Nat) (kd : KeyDir)
    (s : CaskyStat) (c : List Entry) (h : ∀ x ∈ c, key ≠ x.key) :
    getLoop key now kd s c = (none, kd, s, .keyNotFound) := by
  have := getLoop_append_nomatch key now kd s c [] h
  simpa [getLoop] using this

theorem deleteChain_append (key : List Nat) (pre : List Entry) (e : Entry)
    (rest : List Entry) (hpre : ∀ x ∈ pre, key ≠ x.key) (he : e.key = key) :
    deleteChain key (pre ++ e :: rest) = (pre ++ rest, some e) := by
  induction pre with
  | nil => simp [deleteChain, he]
  | cons a l ih =>
    have ha : ¬(a.key = key) := fun hh => (hpre a (by simp)) hh.symm
    have hrec := ih (fun x hx => hpre x (by simp [hx]))
    simp [deleteChain, ha, hrec]

theorem deleteChain_nomatch (key : List Nat) (c : List Entry)
    (h : ∀ x ∈ c, key ≠ x.key) : deleteChain key c = (c, none) := by
  induction c with
  | nil => rfl
  | cons a l ih =>
    have ha : ¬(a.key = key) := fun hh => (h a (by simp)) hh.symm
    have hrec := ih (fun x hx => h x (by simp [hx]))
    simp [deleteChain, ha, hrec]

theorem deleteChain_none_eq (key : List Nat) (c : List Entry)
    (h : (deleteChain key c).2 = none) : (deleteChain key c).1 = c := by
  induction c with
  | nil => rfl
  | cons a l ih =>
    by_cases ha : a.key = key
    · simp [deleteChain, ha] at h
    · simp only [deleteChain, if_neg ha] at h ⊢
      simp [ih h]

theorem deleteChain_some_length (key : List Nat) (c : List Entry) (e : Entry)
    (h : (deleteChain key c).2 = some e) :
    c.length = (deleteChain key c).1.length + 1 := by
  induction c with
  | nil => simp [deleteChain] at h
  | cons a l ih =>
    by_cases ha : a.key = key
    · simp [deleteChain, ha]
    · simp only [deleteChain, if_neg ha] at h ⊢
      simp [ih h]

theorem putChain_not_found (key v : List Nat) (ts exp : Nat) (c : List Entry)
    (h : (putChain key v ts exp c).2 = false) : ∀ x ∈ c, key ≠ x.key := by
  induction c with
  | nil => simp
  | cons a l ih =>
    by_cases hk : key = a.key
    · simp [putChain, hk] at h
    · simp only [putChain, if_neg hk] at h
      intro x hx
      rcases List.mem_cons.mp hx with hx | hx
      · subst hx; exact hk
      · exact ih h x hx

theorem putChain_nomatch (key v : List Nat) (ts exp : Nat) (c : List Entry)
    (h : ∀ x ∈ c, key ≠ x.key) :
    putChain key v ts exp c = (c ++ [⟨key, v, ts, exp⟩], false) := by
  induction c with
  | nil => rfl
  | cons a l ih =>
    have ha : key ≠ a.key := h a (by simp)
    have hrec := ih (fun x hx => h x (by simp [hx]))
    simp [putChain, ha, hrec]

theorem putChain_length_update (key v : List Nat) (ts exp : Nat) (c : List Entry)
    (h : (putChain key v ts exp c).2 = true) :
    (putChain key v ts exp c).1.length = c.length := by
  induction c with
  | nil => simp [putChain] at h
  | cons a l ih =>
    by_cases hk : key = a.key
    · simp [putChain, hk]
    · simp only [putChain, if_neg hk] at h ⊢
      simp [ih h]

theorem putChain_length_insert (key v : List Nat) (ts exp : Nat) (c : List Entry)
    (h : (putChain key v ts exp c).2 = false) :
    (putChain key v ts exp c).1.length = c.length + 1 := by
  induction c with
  | nil => simp [putChain]
  | cons a l ih =>
    by_cases hk : key = a.key
    · simp [putChain, hk] at h
    · simp only [putChain, if_neg hk] at h ⊢
      simp [ih h]

theorem findEntry_putChain (key v : List Nat) (ts exp : Nat) (c : List Entry) :
    findEntry key (putChain key v ts exp c).1 = some ⟨key, v, ts, exp⟩ := by
  induction c with
  | nil => simp [putChain, findEntry]
  | cons a l ih =>
    by_cases hk : key = a.key
    · cases a with
      | mk k0 v0 t0 x0 =>
        simp only [putChain, if_pos hk, findEntry]
        simp at hk
        simp [hk]
    · simp only [putChain, if_neg hk, findEntry]
      simp [if_neg hk, ih]

theorem putChain_keys (key v : List Nat) (ts exp : Nat) (c : List Entry) :
    ((putChain key v ts exp c).1).map (fun en => en.key)
      = if (putChain key v ts exp c).2 then c.map (fun en => en.key)
        else c.map (fun en => en.key) ++ [key] := by
  induction c with
  | nil => simp [putChain]
  | cons a l ih =>
    by_cases hk : key = a.key
    · simp [putChain, hk]
    · simp only [putChain, if_neg hk]
      rcases hfound : (putChain key v ts exp l).2 with _ | _ <;>
        simp [hfound] at ih ⊢ <;> simp [ih]

theorem keysUnique_putChain (key v : List Nat) (ts exp : Nat) (c : List Entry)
    (h : keysUnique c) : keysUnique (putChain key v ts exp c).1 := by
  unfold keysUnique at h ⊢
  rw [putChain_keys]
  rcases hfound : (putChain key v ts exp c).2 with _ | _
  · simp only [if_neg Bool.false_ne_true]
    have hnm := putChain_not_found key v ts exp c hfound
    have hnotmem : key ∉ c.map (fun en => en.key) := by
      intro hmem
      obtain ⟨en, hen, hkey⟩ := List.mem_map.mp hmem
      exact (hnm en hen) hkey.symm
    simp [List.nodup_append, h, hnotmem]
  · simpa using h

/-! ## Helper lemmas: structural projections of the memory operations -/

theorem put_in_memory_root (kd : KeyDir) (s : CaskyStat) (key v : List Nat)
    (ts exp : Nat) :
    (casky_put_in_memory kd s key v ts exp).1.root
      = kd.root.set (bucketIndex kd key)
          (putChain key v ts exp (kd.root.getD (bucketIndex kd key) [])).1 := rfl

theorem put_in_memory_num_entries (kd : KeyDir) (s : CaskyStat) (key v : List Nat)
    (ts exp : Nat) :
    (casky_put_in_memory kd s key v ts exp).1.num_entries
      = if (putChain key v ts exp (kd.root.getD (bucketIndex kd key) [])).2
        then kd.num_entries else kd.num_entries + 1 := rfl

theorem put_in_memory_num_buckets (kd : KeyDir) (s : CaskyStat) (key v : List Nat)
    (ts exp : Nat) :
    (casky_put_in_memory kd s key v ts exp).1.num_buckets = kd.num_buckets := rfl

theorem delete_from_memory_of_some (kd : KeyDir) (s : CaskyStat) (key : List Nat)
    (chain' : List Entry) (e : Entry)
    (h : deleteChain key (kd.root.getD (bucketIndex kd key) []) = (chain', some e)) :
    casky_delete_from_memory kd s key
      = ({ kd with root := kd.root.set (bucketIndex kd key) chain',
                   num_entries := kd.num_entries - 1 },
         casky_stats_dec_entries
           (casky_stats_inc_delete (e.key.length + e.value.length) s),
         true) := by
  simp only [casky_delete_from_memory]
  rw [h]

theorem delete_from_memory_of_none (kd : KeyDir) (s : CaskyStat) (key : List Nat)
    (h : (deleteChain key (kd.root.getD (bucketIndex kd key) [])).2 = none) :
    casky_delete_from_memory kd s key = (kd, s, false) := by
  have hfull : deleteChain key (kd.root.getD (bucketIndex kd key) [])
      = ((deleteChain key (kd.root.getD (bucketIndex kd key) [])).1, none) := by
    rw [← h]
  simp only [casky_delete_from_memory]
  rw [hfull]

theorem bucketIndex_lt (kd : KeyDir) (key : List Nat) (hnb : 0 < kd.num_buckets)
    (hlen : kd.root.length = kd.num_buckets) :
    bucketIndex kd key < kd.root.length := by
  rw [hlen]; exact Nat.mod_lt _ hnb

theorem put_in_memory_kdSized (kd : KeyDir) (s : CaskyStat) (key v : List Nat)
    (ts exp : Nat) (h : kdSized kd) :
    kdSized (casky_put_in_memory kd s key v ts exp).1 := by
  obtain ⟨hnb, hlen, hsum⟩ := h
  have hi := bucketIndex_lt kd key hnb hlen
  have hset := sum_length_set kd.root (bucketIndex kd key)
    (putChain key v ts exp (kd.root.getD (bucketIndex kd key) [])).1 hi
  refine ⟨hnb, ?_, ?_⟩
  · rw [put_in_memory_root, List.length_set, hlen, put_in_memory_num_buckets]
  · rw [put_in_memory_num_entries, put_in_memory_root]
    rcases hfound : (putChain key v ts exp (kd.root.getD (bucketIndex kd key) [])).2
    · have hlen1 := putChain_length_insert key v ts exp
        (kd.root.getD (bucketIndex kd key) []) hfound
      simp only [if_neg Bool.false_ne_true]
      omega
    · have hlen1 := putChain_length_update key v ts exp
        (kd.root.getD (bucketIndex kd key) []) hfound
      simp only [if_pos]
      omega

theorem delete_from_memory_kdSized (kd : KeyDir) (s : CaskyStat) (key : List Nat)
    (h : kdSized kd) : kdSized (casky_delete_from_memory kd s key).1 := by
  obtain ⟨hnb, hlen, hsum⟩ := h
  have hi := bucketIndex_lt kd key hnb hlen
  rcases ho : (deleteChain key (kd.root.getD (bucketIndex kd key) [])).2 with _ | e
  · rw [delete_from_memory_of_none kd s key ho]
    exact ⟨hnb, hlen, hsum⟩
  · have hfull : deleteChain key (kd.root.getD (bucketIndex kd key) [])
        = ((deleteChain key (kd.root.getD (bucketIndex kd key) [])).1, some e) := by
      rw [← ho]
    rw [delete_from_memory_of_some kd s key _ e hfull]
    refine ⟨hnb, by simp [List.length_set, hlen], ?_⟩
    have hset := sum_length_set kd.root (bucketIndex kd key)
      (deleteChain key (kd.root.getD (bucketIndex kd key) [])).1 hi
    have hlen1 := deleteChain_some_length key
      (kd.root.getD (bucketIndex kd key) []) e ho
    simp only []
    omega

theorem getLoop_kdSized (key : List Nat) (now : Nat) (c : List Entry) :
    ∀ kd s, kdSized kd → kdSized (getLoop key now kd s c).2.1 := by
  induction c with
  | nil => intro kd s h; exact h
  | cons a l ih =>
    intro kd s h
    by_cases hk : key = a.key
    · by_cases hex : 0 < a.expiration_ts ∧ a.expiration_ts ≤ now
      · simp only [getLoop, if_pos hk, if_pos hex]
        exact ih _ _ (delete_from_memory_kdSized _ _ _ h)
      · simp only [getLoop, if_pos hk, if_neg hex]
        exact h
    · simp only [getLoop, if_neg hk]
      exact ih _ _ h

/-! ## Helper lemmas: the two terminal behaviors of a get -/

theorem get_from_memory_live (kd : KeyDir) (s : CaskyStat) (key : List Nat)
    (now : Nat) (e : Entry) (hf : findEntry key (kdChain kd key) = some e)
    (hlive : ¬(0 < e.expiration_ts ∧ e.expiration_ts ≤ now)) :
    casky_get_from_memory kd s key now
      = (some e.value, kd, casky_stats_inc_get s, .ok) := by
  obtain ⟨pre, rest, hc, hpre, hke⟩ := findEntry_decomp key _ e hf
  unfold casky_get_from_memory
  rw [hc, getLoop_append_nomatch key now kd s pre _ hpre]
  simp only [getLoop, if_pos hke, if_neg hlive]

theorem get_from_memory_expired (kd : KeyDir) (s : CaskyStat) (key : List Nat)
    (now : Nat) (e : Entry) (hsz : kdSized kd) (hu : keysUnique (kdChain kd key))
    (hf : findEntry key (kdChain kd key) = some e)
    (h1 : 0 < e.expiration_ts) (h2 : e.expiration_ts ≤ now) :
    casky_get_from_memory kd s key now
      = (none,
         (casky_delete_from_memory kd
           (casky_stats_inc_delete (e.key.length + e.value.length) s) key).1,
         (casky_delete_from_memory kd
           (casky_stats_inc_delete (e.key.length + e.value.length) s) key).2.1,
         .keyNotFound)
      ∧ findEntry key
          (kdChain (casky_delete_from_memory kd
            (casky_stats_inc_delete (e.key.length + e.value.length) s) key).1 key)
          = none := by
  obtain ⟨hnb, hlen, hsum⟩ := hsz
  have hi := bucketIndex_lt kd key hnb hlen
  obtain ⟨pre, rest, hc, hpre, hke⟩ := findEntry_decomp key _ e hf
  have hrest : ∀ x ∈ rest, key ≠ x.key := by
    have hnd : ((pre ++ e :: rest).map (fun en => en.key)).Nodup := by
      rw [← hc]; exact hu
    rw [List.map_append] at hnd
    have hnd2 := (List.nodup_append.mp hnd).2.1
    simp only [List.map_cons, List.nodup_cons] at hnd2
    intro x hx hkx
    exact hnd2.1 (List.mem_map.mpr ⟨x, hx, (hke.symm.trans hkx).symm⟩)
  have hdel : deleteChain key (kd.root.getD (bucketIndex kd key) [])
      = (pre ++ rest, some e) := by
    have : kdChain kd key = kd.root.getD (bucketIndex kd key) [] := rfl
    rw [← this, hc]
    exact deleteChain_append key pre e rest hpre hke.symm
  have hdeleq := delete_from_memory_of_some kd
    (casky_stats_inc_delete (e.key.length + e.value.length) s) key (pre ++ rest) e hdel
  have hchain' : kdChain (casky_delete_from_memory kd
      (casky_stats_inc_delete (e.key.length + e.value.length) s) key).1 key
      = pre ++ rest := by
    rw [hdeleq]
    show (kd.root.set (bucketIndex kd key) (pre ++ rest)).getD (bucketIndex kd key) [] = _
    exact getD_set_self kd.root (bucketIndex kd key) (pre ++ rest) hi
  constructor
  · unfold casky_get_from_memory
    rw [hc, getLoop_append_nomatch key now kd s pre _ hpre]
    simp only [getLoop, if_pos hke, if_pos (And.intro h1 h2)]
    exact getLoop_nomatch key now _ _ rest hrest
  · rw [hchain', findEntry_append_nomatch key pre rest hpre]
    exact findEntry_eq_none key rest hrest

theorem delete_stats_of_found (kd : KeyDir) (s : CaskyStat) (key : List Nat)
    (e : Entry) (hf : findEntry key (kdChain kd key) = some e) :
    (casky_delete_from_memory kd s key).2.1
      = casky_stats_dec_entries
          (casky_stats_inc_delete (e.key.length + e.value.length) s) := by
  obtain ⟨pre, rest, hc, hpre, hke⟩ := findEntry_decomp key _ e hf
  have hdel : deleteChain key (kd.root.getD (bucketIndex kd key) [])
      = (pre ++ rest, some e) := by
    have hh : kdChain kd key = kd.root.getD (bucketIndex kd key) [] := rfl
    rw [← hh, hc]
    exact deleteChain_append key pre e rest hpre hke.symm
  rw [delete_from_memory_of_some kd s key (pre ++ rest) e hdel]

/-! ## Helper lemmas: statistics projections -/

theorem inc_delete_memory (b : Nat) (s : CaskyStat) :
    (casky_stats_inc_delete b s).memory_bytes = guardedDec b s.memory_bytes := rfl

theorem dec_entries_memory (s : CaskyStat) :
    (casky_stats_dec_entries s).memory_bytes = s.memory_bytes := rfl

theorem inc_put_memory (b : Nat) (s : CaskyStat) :
    (casky_stats_inc_put b s).memory_bytes = s.memory_bytes + b := rfl

/-! ## Helper lemmas: the expiration sweep as a filter -/

theorem expireChain_spec (now : Nat) (c : List Entry) : ∀ s : CaskyStat,
    expireChain now c s
      = (c.filter (fun en => !decide (0 < en.expiration_ts ∧ en.expiration_ts ≤ now)),
         (c.filter (fun en => decide (0 < en.expiration_ts ∧ en.expiration_ts ≤ now))).foldl
           (fun acc en => casky_stats_inc_delete (en.key.length + en.value.length) acc) s,
         (c.filter (fun en => decide (0 < en.expiration_ts ∧ en.expiration_ts ≤ now))).length) := by
  induction c with
  | nil => intro s; rfl
  | cons a l ih =>
    intro s
    by_cases hex : 0 < a.expiration_ts ∧ a.expiration_ts ≤ now
    · simp [expireChain, hex, List.filter_cons, ih]
    · simp [expireChain, hex, List.filter_cons, ih]
      rw [if_pos (by omega)]

theorem expireBuckets_spec (now : Nat) (L : List (List Entry)) : ∀ s : CaskyStat,
    expireBuckets now L s
      = (L.map (fun c =>
           c.filter (fun en => !decide (0 < en.expiration_ts ∧ en.expiration_ts ≤ now))),
         (L.flatten.filter
           (fun en => decide (0 < en.expiration_ts ∧ en.expiration_ts ≤ now))).foldl
           (fun acc en => casky_stats_inc_delete (en.key.length + en.value.length) acc) s,
         (L.flatten.filter
           (fun en => decide (0 < en.expiration_ts ∧ en.expiration_ts ≤ now))).length) := by
  induction L with
  | nil => intro s; rfl
  | cons c rest ih =>
    intro s
    simp only [expireBuckets, expireChain_spec, ih, List.flatten_cons,
      List.filter_append, List.foldl_append, List.length_append, List.map_cons]

theorem foldl_inc_delete_memory (l : List Entry) : ∀ s : CaskyStat,
    (l.foldl (fun acc en =>
        casky_stats_inc_delete (en.key.length + en.value.length) acc) s).memory_bytes
      = l.foldl (fun m en => guardedDec (en.key.length + en.value.length) m)
          s.memory_bytes := by
  induction l with
  | nil => intro s; rfl
  | cons a l ih =>
    intro s
    simp only [List.foldl_cons, ih, inc_delete_memory]

theorem filter_length_split (p : Entry → Bool) (c : List Entry) :
    (c.filter (fun en => !p en)).length + (c.filter p).length = c.length := by
  induction c with
  | nil => rfl
  | cons a l ih =>
    by_cases hp : p a <;> simp [List.filter_cons, hp] <;> omega

theorem expire_mem_kdSized (kd : KeyDir) (s : CaskyStat) (now : Nat)
    (h : kdSized kd) : kdSized (casky_expire_mem kd s now).1 := by
  obtain ⟨hnb, hlen, hsum⟩ := h
  unfold casky_expire_mem
  rw [expireBuckets_spec]
  refine ⟨hnb, by simpa using hlen, ?_⟩
  simp only []
  have key : ∀ L : List (List Entry),
      ((L.map (fun c =>
        c.filter (fun en => !decide (0 < en.expiration_ts ∧ en.expiration_ts ≤ now)))).map
          List.length).sum
        + (L.flatten.filter
            (fun en => decide (0 < en.expiration_ts ∧ en.expiration_ts ≤ now))).length
      = (L.map List.length).sum := by
    intro L
    induction L with
    | nil => rfl
    | cons c rest ih =>
      simp only [List.map_cons, List.sum_cons, List.flatten_cons, List.filter_append,
        List.length_append]
      have := filter_length_split
        (fun en => decide (0 < en.expiration_ts ∧ en.expiration_ts ≤ now)) c
      omega
  have hkey := key kd.root
  omega

/-! ## Helper lemmas: CRC range -/

theorem crcStep_lt (c : Nat) (h : c < 2 ^ 32) : crcStep c < 2 ^ 32 := by
  unfold crcStep
  split
  · exact Nat.xor_lt_two_pow (by norm_num) (by omega)
  · omega

theorem crc32Table_lt (i : Nat) (h : i < 2 ^ 32) : crc32Table i < 2 ^ 32 := by
  unfold crc32Table
  exact crcStep_lt _ (crcStep_lt _ (crcStep_lt _ (crcStep_lt _ (crcStep_lt _
    (crcStep_lt _ (crcStep_lt _ (crcStep_lt _ h)))))))

theorem crc32Update_lt (crc b : Nat) (h : crc < 2 ^ 32) :
    crc32Update crc b < 2 ^ 32 := by
  unfold crc32Update
  refine Nat.xor_lt_two_pow (crc32Table_lt _ ?_) (by omega)
  calc Nat.xor crc b % 256 < 256 := Nat.mod_lt _ (by norm_num)
    _ < 2 ^ 32 := by norm_num

theorem foldl_crc32Update_lt (l : List Nat) : ∀ c, c < 2 ^ 32 →
    l.foldl crc32Update c < 2 ^ 32 := by
  induction l with
  | nil => intro c h; exact h
  | cons a l ih => intro c h; exact ih _ (crc32Update_lt c a h)

theorem casky_crc32_lt (l : List Nat) : casky_crc32 l < 2 ^ 32 :=
  Nat.xor_lt_two_pow (foldl_crc32Update_lt l _ (by norm_num)) (by norm_num)

/-! ## Helper lemmas: record encoding under realistic length bounds -/

theorem valueLen_some (v : List Nat) : valueLen (some v) = v.length % 2 ^ 32 := rfl

theorem valueLen_none : valueLen none = 0 := rfl

theorem recordBody_some_eq (k v : List Nat) (ts exp : Nat)
    (hk : k.length < 2 ^ 32) (hv : v.length < 2 ^ 32) :
    recordBody k (some v) ts exp
      = u64LE ts ++ u64LE exp ++ u32LE k.length ++ u32LE v.length ++ k ++ v := by
  simp only [recordBody, valueLen_some, Nat.mod_eq_of_lt hk, Nat.mod_eq_of_lt hv,
    List.take_length]

theorem recordBody_none_eq (k : List Nat) (ts exp : Nat)
    (hk : k.length < 2 ^ 32) :
    recordBody k none ts exp
      = u64LE ts ++ u64LE exp ++ u32LE k.length ++ u32LE 0 ++ k := by
  simp only [recordBody, valueLen_none, Nat.mod_eq_of_lt hk, List.take_length]
  simp

theorem write_data_some_eq (k v : List Nat) (ts exp : Nat)
    (hk : k.length < 2 ^ 32) (hv : v.length < 2 ^ 32) :
    casky_write_data_to_file k (some v) ts exp
      = u32LE (casky_crc32 (recordBody k (some v) ts exp)) ++ u64LE ts ++ u64LE exp
        ++ u32LE k.length ++ u32LE v.length ++ k ++ v := by
  simp only [casky_write_data_to_file, valueLen_some, Nat.mod_eq_of_lt hk,
    Nat.mod_eq_of_lt hv, List.take_length, Option.getD_some]
  rcases Nat.eq_zero_or_pos v.length with hv0 | hv0
  · have hvnil : v = [] := List.length_eq_zero.mp hv0
    subst hvnil
    simp
  · rw [if_pos hv0]

theorem write_data_none_eq (k : List Nat) (ts exp : Nat) (hk : k.length < 2 ^ 32) :
    casky_write_data_to_file k none ts exp
      = u32LE (casky_crc32 (recordBody k none ts exp)) ++ u64LE ts ++ u64LE exp
        ++ u32LE k.length ++ u32LE 0 ++ k := by
  simp only [casky_write_data_to_file, valueLen_none, Nat.mod_eq_of_lt hk,
    List.take_length]
  simp

theorem parseRecord_write (k v : List Nat) (ts exp : Nat) (rest : List Nat)
    (hk : k.length < 2 ^ 32) (hv : v.length < 2 ^ 32)
    (hts : ts < 2 ^ 64) (hexp : exp < 2 ^ 64) :
    parseRecord (casky_write_data_to_file k (some v) ts exp ++ rest)
      = some (⟨casky_crc32 (recordBody k (some v) ts exp), ts, exp,
              k.length, v.length, k, v⟩, rest) := by
  rw [write_data_some_eq k v ts exp hk hv]
  have hbk : readBytes k.length (k ++ (v ++ rest)) = some (k, v ++ rest) :=
    readBytes_exact k (v ++ rest)
  have hbv : readBytes v.length (v ++ rest) = some (v, rest) :=
    readBytes_exact v rest
  simp only [parseRecord, List.append_assoc,
    readU32_append _ _ (casky_crc32_lt (recordBody k (some v) ts exp)),
    readU64_append _ _ hts, readU64_append _ _ hexp,
    readU32_append _ _ hk, readU32_append _ _ hv, hbk, hbv]

/-! ## Helper lemmas: the recovery loop -/

theorem loadStep_nil (kd : KeyDir) (s : CaskyStat) (now : Nat) :
    loadStep kd s now [] = none := rfl

theorem loadLoop_nil (fuel : Nat) (kd : KeyDir) (s : CaskyStat) (now : Nat) :
    loadLoop fuel kd s now [] = (kd, s) := by
  cases fuel with
  | zero => rfl
  | succ f => simp [loadLoop, loadStep_nil]

theorem loadStep_tombstone (kd : KeyDir) (s : CaskyStat) (now : Nat)
    (k : List Nat) (ts exp : Nat) (rest : List Nat)
    (hk : k.length < 2 ^ 32) (hts : ts < 2 ^ 64) (hexp : exp < 2 ^ 64) :
    loadStep kd s now (casky_write_data_to_file k none ts exp ++ rest)
      = some ((casky_delete_from_memory kd s k).1,
              (casky_delete_from_memory kd s k).2.1, rest) := by
  rw [write_data_none_eq k ts exp hk]
  have hbk : readBytes k.length (k ++ rest) = some (k, rest) :=
    readBytes_exact k rest
  simp only [loadStep, List.append_assoc,
    readU32_append _ _ (casky_crc32_lt (recordBody k none ts exp)),
    readU64_append _ _ hts, readU64_append _ _ hexp,
    readU32_append _ _ hk, readU32_append _ _ (show 0 < 2 ^ 32 by norm_num),
    hbk]
  simp

theorem loadLoop_step (fuel : Nat) (kd : KeyDir) (s : CaskyStat) (now : Nat)
    (bs : List Nat) (r : KeyDir × CaskyStat × List Nat)
    (h : loadStep kd s now bs = some r) :
    loadLoop (fuel + 1) kd s now bs = loadLoop fuel r.1 r.2.1 now r.2.2 := by
  simp [loadLoop, h]


/-! ## Helper lemmas: parsing a file of concatenated records -/

theorem parseGo_nil (fuel : Nat) : parseGo fuel [] = [] := by
  cases fuel with
  | zero => rfl
  | succ f => simp [parseGo, parseRecord, readU32, readBytes]

theorem parseGo_records (ens : List Entry) : ∀ fuel, ens.length < fuel →
    (∀ en ∈ ens, en.key.length < 2 ^ 32 ∧ en.value.length < 2 ^ 32 ∧
      en.timestamp < 2 ^ 64 ∧ en.expiration_ts < 2 ^ 64) →
    parseGo fuel ((ens.map (fun en =>
      casky_write_data_to_file en.key (some en.value)
        en.timestamp en.expiration_ts)).flatten)
      = ens.map entryRecord := by
  induction ens with
  | nil => intro fuel _ _; simp [parseGo_nil]
  | cons en l ih =>
    intro fuel hf hb
    cases fuel with
    | zero => omega
    | succ f =>
      obtain ⟨hk, hv, hts, hexp⟩ := hb en (by simp)
      simp only [List.map_cons, List.flatten_cons, parseGo,
        parseRecord_write en.key en.value en.timestamp en.expiration_ts _
          hk hv hts hexp, entryRecord]
      rw [ih f (by simpa using Nat.lt_of_succ_lt_succ hf)
        (fun x hx => hb x (by simp [hx]))]

theorem write_data_length_pos (k : List Nat) (v : Option (List Nat))
    (ts exp : Nat) : 0 < (casky_write_data_to_file k v ts exp).length := by
  simp only [casky_write_data_to_file, List.length_append, length_u32LE,
    length_u64LE]
  omega

theorem count_le_bytes (ens : List Entry) :
    ens.length ≤ ((ens.map (fun en =>
      casky_write_data_to_file en.key (some en.value)
        en.timestamp en.expiration_ts)).flatten).length := by
  induction ens with
  | nil => simp
  | cons en l ih =>
    simp only [List.map_cons, List.flatten_cons, List.length_append,
      List.length_cons]
    have := write_data_length_pos en.key (some en.value)
      en.timestamp en.expiration_ts
    omega

theorem flatten_map_flatten (L : List (List Entry)) (f : Entry → List Nat) :
    (L.map (fun c => (c.map f).flatten)).flatten = ((L.flatten).map f).flatten := by
  induction L with
  | nil => rfl
  | cons c rest ih => simp [List.map_append, ih]

/-! ## Helper lemmas: facade projections and well-formedness preservation -/

theorem casky_put_some_kd (e : Engine) (k v : List Nat) (ttl now : Nat) (ok : Bool) :
    ((casky_put e (some k) (some v) ttl now ok).2).kd
      = (casky_put_in_memory e.kd e.stats k v now
          (if 0 < ttl then now + ttl else 0)).1 := by
  simp only [casky_put]
  split <;> rfl

theorem casky_delete_some_kd (e : Engine) (k : List Nat) (now : Nat) (ok : Bool) :
    ((casky_delete e (some k) now ok).2).kd
      = (casky_delete_from_memory e.kd e.stats k).1 := by
  simp only [casky_delete]
  split
  · rfl
  · split <;> rfl

theorem casky_get_some_kd (e : Engine) (k : List Nat) (now : Nat) :
    ((casky_get e (some k) now).2).kd
      = (casky_get_from_memory e.kd e.stats k now).2.1 := rfl

theorem casky_expire_kd (e : Engine) (now : Nat) :
    (casky_expire e now).kd = (casky_expire_mem e.kd e.stats now).1 := rfl

theorem applyOp_kdSized (e : Engine) (op : EngineOp) (h : kdSized e.kd) :
    kdSized (applyOp e op).kd := by
  cases op with
  | opPut k v ttl now ok =>
    show kdSized ((casky_put e (some k) (some v) ttl now ok).2).kd
    rw [casky_put_some_kd]
    exact put_in_memory_kdSized _ _ _ _ _ _ h
  | opDel k now ok =>
    show kdSized ((casky_delete e (some k) now ok).2).kd
    rw [casky_delete_some_kd]
    exact delete_from_memory_kdSized _ _ _ h
  | opGet k now =>
    show kdSized ((casky_get e (some k) now).2).kd
    rw [casky_get_some_kd]
    exact getLoop_kdSized k now _ _ _ h
  | opExpire now =>
    show kdSized (casky_expire e now).kd
    rw [casky_expire_kd]
    exact expire_mem_kdSized _ _ _ h

theorem applyOps_kdSized (ops : List EngineOp) : ∀ e : Engine,
    kdSized e.kd → kdSized (applyOps e ops).kd := by
  induction ops with
  | nil => intro e h; exact h
  | cons op rest ih => intro e h; exact ih _ (applyOp_kdSized e op h)


/-! ## Helper lemmas: fresh keydirs and the put-then-get chain view -/

theorem emptyKd_chain (nb : Nat) (k : List Nat) : kdChain (emptyKd nb) k = [] := by
  unfold kdChain emptyKd
  exact getD_replicate_nil nb _

theorem get_from_memory_emptyKd (nb : Nat) (s : CaskyStat) (k : List Nat)
    (now : Nat) :
    casky_get_from_memory (emptyKd nb) s k now
      = (none, emptyKd nb, s, .keyNotFound) := by
  unfold casky_get_from_memory
  rw [emptyKd_chain]
  rfl

theorem put_in_memory_chain (kd : KeyDir) (s : CaskyStat) (key v : List Nat)
    (ts exp : Nat) (hnb : 0 < kd.num_buckets)
    (hlen : kd.root.length = kd.num_buckets) :
    kdChain (casky_put_in_memory kd s key v ts exp).1 key
      = (putChain key v ts exp (kdChain kd key)).1 := by
  have hi := bucketIndex_lt kd key hnb hlen
  show ((casky_put_in_memory kd s key v ts exp).1.root).getD
      (bucketIndex (casky_put_in_memory kd s key v ts exp).1 key) [] = _
  have hb : bucketIndex (casky_put_in_memory kd s key v ts exp).1 key
      = bucketIndex kd key := rfl
  rw [hb, put_in_memory_root]
  exact getD_set_self kd.root (bucketIndex kd key) _ hi

theorem write_empty_eq_tombstone (k : List Nat) (ts exp : Nat) :
    casky_write_data_to_file k (some []) ts exp
      = casky_write_data_to_file k none ts exp := by
  simp [casky_write_data_to_file, recordBody, valueLen]

/-! ## Helper lemmas: the CRC field frames the rest of the record -/

theorem write_data_drop4 (k : List Nat) (value : Option (List Nat))
    (ts exp : Nat) :
    (casky_write_data_to_file k value ts exp).drop 4
      = recordBody k value ts exp := by
  unfold casky_write_data_to_file
  rw [List.append_assoc, List.append_assoc, List.append_assoc, List.append_assoc,
    List.append_assoc,
    show (4 : Nat) = (u32LE (casky_crc32 (recordBody k value ts exp))).length from rfl,
    List.drop_left]
  unfold recordBody
  rcases value with _ | v
  · simp [valueLen]
  · rw [valueLen_some]
    rcases Nat.eq_zero_or_pos (v.length % 2 ^ 32) with hv0 | hv0
    · simp [hv0, valueLen]
      exact fun h => Or.inl h
    · simp [valueLen, if_pos hv0]
      exact fun h => Or.inl h

theorem write_data_take4 (k : List Nat) (value : Option (List Nat))
    (ts exp : Nat) :
    (casky_write_data_to_file k value ts exp).take 4
      = u32LE (casky_crc32 ((casky_write_data_to_file k value ts exp).drop 4)) := by
  rw [write_data_drop4]
  unfold casky_write_data_to_file
  rw [List.append_assoc, List.append_assoc, List.append_assoc, List.append_assoc,
    List.append_assoc,
    show (4 : Nat) = (u32LE (casky_crc32 (recordBody k value ts exp))).length from rfl,
    List.take_left]


/-! ## Claim theorems -/

/-- C5: for every put whose log append fails, `casky_put` returns -1 with the
error set to I/O, while the in-memory keydir and statistics update performed
by `casky_put_in_memory` before the append remains in place and the log file
is unchanged (the in-memory state is updated before the append is attempted). -/
theorem put_append_failure_keeps_memory_update (e : Engine) (k v : List Nat)
    (ttl now : Nat) :
    casky_put e (some k) (some v) ttl now false
      = (-1, { e with
          kd := (casky_put_in_memory e.kd e.stats k v now
                  (if 0 < ttl then now + ttl else 0)).1,
          stats := (casky_put_in_memory e.kd e.stats k v now
                  (if 0 < ttl then now + ttl else 0)).2,
          errno := CaskyError.ioErr }) := by
  simp only [casky_put, Bool.false_eq_true, if_false]
  rfl

/-- C8: after every sequence of puts, deletes, gets and expirations applied
through the facade to a well-formed keydir, `num_entries` equals the number
of nodes reachable by walking every bucket chain. -/
theorem num_entries_counts_reachable_nodes (e : Engine) (ops : List EngineOp)
    (h : kdSized e.kd) :
    ((applyOps e ops).kd).num_entries
      = (((applyOps e ops).kd).root.map List.length).sum :=
  (applyOps_kdSized ops e h).2.2

/-- Witness for C8: a fresh engine, two puts, a delete, a get and an expire
sweep leave `num_entries` equal to the walked node count. -/
theorem num_entries_counts_reachable_nodes_witness :
    ((applyOps freshEngine
        [EngineOp.opPut [97] [120] 0 1 true, EngineOp.opPut [98] [121] 2 1 true,
         EngineOp.opDel [97] 2 true, EngineOp.opGet [98] 9,
         EngineOp.opExpire 9]).kd).num_entries
      = (((applyOps freshEngine
        [EngineOp.opPut [97] [120] 0 1 true, EngineOp.opPut [98] [121] 2 1 true,
         EngineOp.opDel [97] 2 true, EngineOp.opGet [98] 9,
         EngineOp.opExpire 9]).kd).root.map List.length).sum :=
  num_entries_counts_reachable_nodes freshEngine
    [EngineOp.opPut [97] [120] 0 1 true, EngineOp.opPut [98] [121] 2 1 true,
     EngineOp.opDel [97] 2 true, EngineOp.opGet [98] 9,
     EngineOp.opExpire 9] (by decide)

/-- C10: on a keydir whose first matching entry for `k` is present and not
expired, `casky_get` returns a copy of the stored value and changes nothing:
the keydir (every bucket chain, `num_entries`), the log bytes and the lock are
unchanged, the error is OK, and of the statistics counters only `num_gets` is
bumped (by `casky_stats_inc_get`). -/
theorem get_live_pure_frame (e : Engine) (k : List Nat) (now : Nat) (en : Entry)
    (hf : findEntry k (kdChain e.kd k) = some en)
    (hlive : ¬(0 < en.expiration_ts ∧ en.expiration_ts ≤ now)) :
    casky_get e (some k) now
      = (some en.value,
         { e with stats := casky_stats_inc_get e.stats,
                  errno := CaskyError.ok }) := by
  have h := get_from_memory_live e.kd e.stats k now en hf hlive
  simp only [casky_get, h]
  simp

/-- Witness for C10: a concrete engine holding `"a" -> "b"`; the get returns
the value and only bumps `num_gets`. -/
theorem get_live_pure_frame_witness :
    casky_get (casky_put freshEngine (some [97]) (some [98]) 0 5 true).2
        (some [97]) 9
      = (some [98],
         { (casky_put freshEngine (some [97]) (some [98]) 0 5 true).2 with
             stats := casky_stats_inc_get
               ((casky_put freshEngine (some [97]) (some [98]) 0 5 true).2).stats,
             errno := CaskyError.ok }) := by
  have h := get_live_pure_frame
    (casky_put freshEngine (some [97]) (some [98]) 0 5 true).2 [97] 9
    ⟨[97], [98], 5, 0⟩ (by decide) (by decide)
  simpa using h


/-- C2 counterexample: in the state reached by `put("a","x")` (no TTL) and
`put("b","y")` expiring at 5, `memory_bytes` is 4; the expired entry for "b"
weighs `len(key)+len(value) = 2`, so decrementing "by exactly the same
formula, exactly once" would leave 2 — but the passive expiry inside
`casky_get_from_memory` decrements twice (once directly, once inside
`casky_delete_from_memory`), leaving 0. -/
theorem memory_bytes_double_decrement_on_expired_get :
    (c2State.2).memory_bytes = 4
    ∧ findEntry [98] (kdChain c2State.1 [98]) = some ⟨[98], [121], 1, 5⟩
    ∧ guardedDec ([98].length + [121].length) (c2State.2).memory_bytes = 2
    ∧ ((casky_get_from_memory c2State.1 c2State.2 [98] 10).2.2.1).memory_bytes
        = 0 := by
  decide

/-- C2 (amended): `memory_bytes` is incremented by `len(key)+len(value)` on
each insertion or update; it is decremented by the same formula through the
guarded subtraction of `casky_stats_inc_delete` (applied only when it would
not underflow, so the counter never goes negative) — once per deletion, once
per entry removed by the expire sweep, but twice when an expired entry is
removed passively by a get. -/
theorem memory_bytes_accounting :
    (∀ kd s k v ts exp,
      ((casky_put_in_memory kd s k v ts exp).2).memory_bytes
        = s.memory_bytes + (k.length + v.length))
    ∧ (∀ kd s k e, findEntry k (kdChain kd k) = some e →
        ((casky_delete_from_memory kd s k).2.1).memory_bytes
          = guardedDec (e.key.length + e.value.length) s.memory_bytes)
    ∧ (∀ kd s k now e, kdSized kd → keysUnique (kdChain kd k) →
        findEntry k (kdChain kd k) = some e →
        0 < e.expiration_ts → e.expiration_ts ≤ now →
        ((casky_get_from_memory kd s k now).2.2.1).memory_bytes
          = guardedDec (e.key.length + e.value.length)
              (guardedDec (e.key.length + e.value.length) s.memory_bytes))
    ∧ (∀ kd s now,
        ((casky_expire_mem kd s now).2).memory_bytes
          = (expiredEntries kd now).foldl
              (fun m en => guardedDec (en.key.length + en.value.length) m)
              s.memory_bytes) := by
  refine ⟨?_, ?_, ?_, ?_⟩
  · intro kd s k v ts exp
    simp only [casky_put_in_memory]
    split <;> rfl
  · intro kd s k e hf
    rw [delete_stats_of_found kd s k e hf]
    rfl
  · intro kd s k now e hsz hu hf h1 h2
    have hmain := (get_from_memory_expired kd s k now e hsz hu hf h1 h2).1
    have hstats : (casky_get_from_memory kd s k now).2.2.1
        = (casky_delete_from_memory kd
            (casky_stats_inc_delete (e.key.length + e.value.length) s) k).2.1 := by
      rw [hmain]
    rw [hstats, delete_stats_of_found kd _ k e hf]
    rfl
  · intro kd s now
    have hb : (casky_expire_mem kd s now).2 = (expireBuckets now kd.root s).2.1 := rfl
    rw [hb, expireBuckets_spec]
    exact foldl_inc_delete_memory _ s

/-- Witness for C2 (amended): the passive-expiry conjunct evaluated on the
counterexample state. -/
theorem memory_bytes_accounting_witness :
    ((casky_get_from_memory c2State.1 c2State.2 [98] 10).2.2.1).memory_bytes
      = guardedDec ([98].length + [121].length)
          (guardedDec ([98].length + [121].length) (c2State.2).memory_bytes) :=
  memory_bytes_accounting.2.2.1 c2State.1 c2State.2 [98] 10 ⟨[98], [121], 1, 5⟩
    (by decide) (by decide) (by decide) (by decide) (by decide)

/-- C6: a get on a present entry treats it as absent and removes it passively
when `expiration > 0` and `expiration ≤ now` (returning null with
key-not-found), and otherwise returns a fresh copy of the stored value; in
particular a `put(k,v,ttl=T)` issued at time `t0` makes `get(k)` at any
`t ≥ t0+T` return key-not-found. -/
theorem get_expiration_semantics :
    (∀ kd s k now e, kdSized kd → keysUnique (kdChain kd k) →
      findEntry k (kdChain kd k) = some e →
      0 < e.expiration_ts → e.expiration_ts ≤ now →
        (casky_get_from_memory kd s k now).1 = none
        ∧ (casky_get_from_memory kd s k now).2.2.2 = CaskyError.keyNotFound
        ∧ findEntry k (kdChain (casky_get_from_memory kd s k now).2.1 k) = none)
    ∧ (∀ kd s k now e,
      findEntry k (kdChain kd k) = some e →
      ¬(0 < e.expiration_ts ∧ e.expiration_ts ≤ now) →
        (casky_get_from_memory kd s k now).1 = some e.value
        ∧ (casky_get_from_memory kd s k now).2.2.2 = CaskyError.ok)
    ∧ (∀ (e0 : Engine) (k v : List Nat) (T t0 t : Nat) (ok : Bool),
      kdSized e0.kd → keysUnique (kdChain e0.kd k) → 0 < T → t0 + T ≤ t →
        (casky_get ((casky_put e0 (some k) (some v) T t0 ok).2) (some k) t).1 = none
        ∧ ((casky_get ((casky_put e0 (some k) (some v) T t0 ok).2)
            (some k) t).2).errno = CaskyError.keyNotFound) := by
  refine ⟨?_, ?_, ?_⟩
  · intro kd s k now e hsz hu hf h1 h2
    obtain ⟨hmain, hgone⟩ := get_from_memory_expired kd s k now e hsz hu hf h1 h2
    refine ⟨by rw [hmain], by rw [hmain], ?_⟩
    have : (casky_get_from_memory kd s k now).2.1
        = (casky_delete_from_memory kd
            (casky_stats_inc_delete (e.key.length + e.value.length) s) k).1 := by
      rw [hmain]
    rw [this]
    exact hgone
  · intro kd s k now e hf hlive
    have h := get_from_memory_live kd s k now e hf hlive
    exact ⟨by rw [h], by rw [h]⟩
  · intro e0 k v T t0 t ok hsz hu hT ht
    have hkd : ((casky_put e0 (some k) (some v) T t0 ok).2).kd
        = (casky_put_in_memory e0.kd e0.stats k v t0 (t0 + T)).1 := by
      rw [casky_put_some_kd, if_pos hT]
    have hchain : kdChain ((casky_put e0 (some k) (some v) T t0 ok).2).kd k
        = (putChain k v t0 (t0 + T) (kdChain e0.kd k)).1 := by
      rw [hkd]
      exact put_in_memory_chain e0.kd e0.stats k v t0 (t0 + T) hsz.1 hsz.2.1
    have hf1 : findEntry k (kdChain ((casky_put e0 (some k) (some v) T t0 ok).2).kd k)
        = some ⟨k, v, t0, t0 + T⟩ := by
      rw [hchain]
      exact findEntry_putChain k v t0 (t0 + T) (kdChain e0.kd k)
    have hu1 : keysUnique (kdChain ((casky_put e0 (some k) (some v) T t0 ok).2).kd k) := by
      rw [hchain]
      exact keysUnique_putChain k v t0 (t0 + T) _ hu
    have hsz1 : kdSized ((casky_put e0 (some k) (some v) T t0 ok).2).kd := by
      rw [hkd]
      exact put_in_memory_kdSized _ _ _ _ _ _ hsz
    have hmain := (get_from_memory_expired
      ((casky_put e0 (some k) (some v) T t0 ok).2).kd
      ((casky_put e0 (some k) (some v) T t0 ok).2).stats
      k t ⟨k, v, t0, t0 + T⟩ hsz1 hu1 hf1 (by show 0 < t0 + T; omega)
      (by show t0 + T ≤ t; omega)).1
    constructor
    · show (casky_get_from_memory ((casky_put e0 (some k) (some v) T t0 ok).2).kd
        ((casky_put e0 (some k) (some v) T t0 ok).2).stats k t).1 = none
      rw [hmain]
    · show (casky_get_from_memory ((casky_put e0 (some k) (some v) T t0 ok).2).kd
        ((casky_put e0 (some k) (some v) T t0 ok).2).stats k t).2.2.2
          = CaskyError.keyNotFound
      rw [hmain]

/-- Witness for C6: `put("a","b", ttl=2)` at time 10 on a fresh engine, then a
get at time 12, returns key-not-found. -/
theorem get_expiration_semantics_witness :
    (casky_get ((casky_put freshEngine (some [97]) (some [98]) 2 10 true).2)
        (some [97]) 12).1 = none :=
  (get_expiration_semantics.2.2 freshEngine [97] [98] 2 10 12 true
    (by decide) (by decide) (by decide) (by decide)).1


/-- C1 (code bug): `casky_init_kd_from_file` reads the stored CRC but never
recomputes or compares it.  On a log whose single record has a stored CRC
different from the CRC-32 of fields 2 onward, `casky_open` loads the record
into the keydir anyway, leaves `corrupted_dir` clear and `casky_errno = OK`;
and a record appended after the corrupt one is still scanned and loaded, so
the scan does not stop either. -/
theorem recovery_loads_crc_mismatched_record :
    leVal (corruptLog.take 4) ≠ casky_crc32 (corruptLog.drop 4)
    ∧ (casky_open corruptLog 5).1.corrupted_dir = false
    ∧ (casky_open corruptLog 5).2.2 = CaskyError.ok
    ∧ findEntry [97] (kdChain (casky_open corruptLog 5).1 [97])
        = some ⟨[97], [98], 1, 0⟩
    ∧ findEntry [99] (kdChain (casky_open (corruptLog ++ recordAfterCorrupt) 5).1 [99])
        = some ⟨[99], [100], 1, 0⟩ := by
  decide

/-- C3 (code bug): in the thread-safe build, `casky_delete` on a key that is
not present returns -1 with key-not-found while the engine mutex acquired at
entry is still held (`lockHeld` goes from 0 to 1 with no release on that
path), whereas put, get, compact and expire all release the lock on exit. -/
theorem delete_missing_key_returns_with_lock_held :
    ((casky_delete freshEngine (some [97]) 3 true).1 = -1
      ∧ (casky_delete freshEngine (some [97]) 3 true).2.errno
          = CaskyError.keyNotFound
      ∧ (casky_delete freshEngine (some [97]) 3 true).2.lockHeld = 1)
    ∧ (casky_put freshEngine (some [97]) (some [98]) 0 3 true).2.lockHeld = 0
    ∧ (casky_get freshEngine (some [97]) 3).2.lockHeld = 0
    ∧ (casky_compact freshEngine true).2.lockHeld = 0
    ∧ (casky_expire freshEngine 3).lockHeld = 0 := by
  decide

/-- C9: every appended record is, in order, the little-endian `crc32` over the
bytes from field 2 onward, then `timestamp` (u64 LE), `expiration` (u64 LE),
`key_len` (u32 LE), `value_len` (u32 LE), exactly `key_len` key bytes, then
exactly `value_len` value bytes; a record with `value_len = 0` carries no
value bytes (its length is just the 28-byte header plus the key) and is
byte-identical to the DELETE tombstone encoding. -/
theorem record_format_layout :
    (∀ (k v : List Nat) (ts exp : Nat) (rest : List Nat),
      k.length < 2 ^ 32 → v.length < 2 ^ 32 → ts < 2 ^ 64 → exp < 2 ^ 64 →
      parseRecord (casky_write_data_to_file k (some v) ts exp ++ rest)
        = some (⟨casky_crc32 (recordBody k (some v) ts exp), ts, exp,
                k.length, v.length, k, v⟩, rest))
    ∧ (∀ (k : List Nat) (value : Option (List Nat)) (ts exp : Nat),
      (casky_write_data_to_file k value ts exp).take 4
          = u32LE (casky_crc32 ((casky_write_data_to_file k value ts exp).drop 4))
        ∧ (casky_write_data_to_file k value ts exp).drop 4
          = recordBody k value ts exp)
    ∧ (∀ (k : List Nat) (ts exp : Nat),
      casky_write_data_to_file k none ts exp
        = casky_write_data_to_file k (some []) ts exp)
    ∧ (∀ (k : List Nat) (ts exp : Nat), k.length < 2 ^ 32 →
      (casky_write_data_to_file k none ts exp).length = 28 + k.length) := by
  refine ⟨?_, ?_, ?_, ?_⟩
  · intro k v ts exp rest hk hv hts hexp
    exact parseRecord_write k v ts exp rest hk hv hts hexp
  · intro k value ts exp
    exact ⟨write_data_take4 k value ts exp, write_data_drop4 k value ts exp⟩
  · intro k ts exp
    exact (write_empty_eq_tombstone k ts exp).symm
  · intro k ts exp hk
    rw [write_data_none_eq k ts exp hk]
    simp only [List.length_append, length_u32LE, length_u64LE]

/-- Witness for C9: the record for key "a", value "b", timestamp 3,
expiration 9 parses back to its fields with 5 trailing bytes untouched, and
the tombstone for "a" is 29 bytes. -/
theorem record_format_layout_witness :
    parseRecord (casky_write_data_to_file [97] (some [98]) 3 9 ++ [5])
      = some (⟨casky_crc32 (recordBody [97] (some [98]) 3 9), 3, 9,
              1, 1, [97], [98]⟩, [5])
    ∧ (casky_write_data_to_file [97] none 3 9).length = 28 + 1 := by
  constructor
  · have h := record_format_layout.1 [97] [98] 3 9 [5]
      (by decide) (by decide) (by decide) (by decide)
    simpa using h
  · have h := record_format_layout.2.2.2 [97] 3 9 (by decide)
    simpa using h


/-- C4: `casky_put(kd, k, "", 0)` succeeds and a get on the live engine
returns the empty string, but the appended record is byte-identical to the
DELETE tombstone encoding (`value_len = 0`), so reopening the same log treats
it as a delete: the reopened keydir answers key-not-found for `k` — the
put/close/open round trip loses keys whose last value is empty. -/
theorem empty_value_put_lost_on_reopen (k : List Nat) (ts now now2 : Nat)
    (hk : k.length < 2 ^ 32) (hts : ts < 2 ^ 64) :
    (casky_put freshEngine (some k) (some []) 0 ts true).1 = 0
    ∧ (casky_put freshEngine (some k) (some []) 0 ts true).2.errno = CaskyError.ok
    ∧ (casky_get (casky_put freshEngine (some k) (some []) 0 ts true).2
        (some k) now).1 = some []
    ∧ (casky_put freshEngine (some k) (some []) 0 ts true).2.log
        = casky_write_data_to_file k none ts 0
    ∧ (casky_get_from_memory
        (casky_open (casky_put freshEngine (some k) (some []) 0 ts true).2.log
          now2).1 statsInit k now2).1 = none
    ∧ (casky_get_from_memory
        (casky_open (casky_put freshEngine (some k) (some []) 0 ts true).2.log
          now2).1 statsInit k now2).2.2.2 = CaskyError.keyNotFound := by
  have hlog : (casky_put freshEngine (some k) (some []) 0 ts true).2.log
      = casky_write_data_to_file k none ts 0 := by
    rw [← write_empty_eq_tombstone k ts 0]
    rfl
  have hkd : (casky_put freshEngine (some k) (some []) 0 ts true).2.kd
      = (casky_put_in_memory (emptyKd 1024) statsInit k [] ts 0).1 := by
    rw [casky_put_some_kd]
    rfl
  have hchain : kdChain (casky_put freshEngine (some k) (some []) 0 ts true).2.kd k
      = [⟨k, [], ts, 0⟩] := by
    rw [hkd, put_in_memory_chain (emptyKd 1024) statsInit k [] ts 0
      (by decide) (by decide), emptyKd_chain]
    rfl
  have hfind : findEntry k
      (kdChain (casky_put freshEngine (some k) (some []) 0 ts true).2.kd k)
      = some ⟨k, [], ts, 0⟩ := by
    rw [hchain]
    simp [findEntry]
  have hget : (casky_get (casky_put freshEngine (some k) (some []) 0 ts true).2
      (some k) now).1 = some [] := by
    have h := get_from_memory_live
      (casky_put freshEngine (some k) (some []) 0 ts true).2.kd
      (casky_put freshEngine (some k) (some []) 0 ts true).2.stats
      k now ⟨k, [], ts, 0⟩ hfind (by simp)
    show (casky_get_from_memory
      (casky_put freshEngine (some k) (some []) 0 ts true).2.kd
      (casky_put freshEngine (some k) (some []) 0 ts true).2.stats k now).1
        = some []
    rw [h]
  have hdel : casky_delete_from_memory (emptyKd 1024) statsInit k
      = (emptyKd 1024, statsInit, false) := by
    apply delete_from_memory_of_none
    have hg : (emptyKd 1024).root.getD (bucketIndex (emptyKd 1024) k) [] = [] :=
      getD_replicate_nil 1024 _
    rw [hg]
    rfl
  have hstep : loadStep (emptyKd 1024) statsInit now2
      (casky_write_data_to_file k none ts 0)
      = some (emptyKd 1024, statsInit, []) := by
    have h1 := loadStep_tombstone (emptyKd 1024) statsInit now2 k ts 0 [] hk hts
      (by norm_num)
    rw [List.append_nil, hdel] at h1
    exact h1
  have hopen : (casky_open (casky_write_data_to_file k none ts 0) now2).1
      = emptyKd 1024 := by
    simp only [casky_open]
    rw [loadLoop_step _ _ _ _ _ _ hstep, loadLoop_nil]
  refine ⟨rfl, rfl, hget, hlog, ?_, ?_⟩
  · rw [hlog, hopen, get_from_memory_emptyKd]
  · rw [hlog, hopen, get_from_memory_emptyKd]

/-- Witness for C4: the concrete key "a" put with the empty value at time 5 is
gone after a reopen at time 7. -/
theorem empty_value_put_lost_on_reopen_witness :
    (casky_put freshEngine (some [97]) (some []) 0 5 true).1 = 0
    ∧ (casky_get (casky_put freshEngine (some [97]) (some []) 0 5 true).2
        (some [97]) 6).1 = some []
    ∧ (casky_get_from_memory
        (casky_open (casky_put freshEngine (some [97]) (some []) 0 5 true).2.log
          7).1 statsInit [97] 7).1 = none := by
  obtain ⟨h1, _, h3, _, h5, _⟩ :=
    empty_value_put_lost_on_reopen [97] 5 6 7 (by decide) (by decide)
  exact ⟨h1, h3, h5⟩

/-- C7 counterexample: a keydir reached by `casky_put(kd, "a", "", 0)` has one
live entry (a get returns the empty string), yet the file produced by compact
consists of a single record with `value_len = 0` — byte-identical to the
DELETE tombstone for "a" — so the compacted log does contain a tombstone. -/
theorem compact_writes_tombstone_for_empty_value :
    emptyValueKd.num_entries = 1
    ∧ (casky_get_from_memory emptyValueKd statsInit [97] 9).1 = some []
    ∧ compactBytes emptyValueKd = casky_write_data_to_file [97] none 7 0
    ∧ (parseRecords (compactBytes emptyValueKd)).map (fun r => r.value_len)
        = [0] := by
  decide

/-- C7 (amended): on a well-formed engine all of whose live entries have
non-empty values (of realistic sizes), a successful compact leaves the
in-memory keydir and every get unchanged, and the resulting log parses to
exactly one PUT record per live entry — `num_entries` records in total and no
tombstones.  (Without the non-empty-value proviso a live entry with an empty
value is written as a `value_len = 0` record, i.e. tombstone-encoded.) -/
theorem compact_fidelity (e : Engine) (hsz : kdSized e.kd)
    (hb : ∀ en ∈ e.kd.root.flatten, en.value ≠ [] ∧ en.key.length < 2 ^ 32
      ∧ en.value.length < 2 ^ 32 ∧ en.timestamp < 2 ^ 64
      ∧ en.expiration_ts < 2 ^ 64) :
    (casky_compact e true).1 = 0
    ∧ ((casky_compact e true).2).kd = e.kd
    ∧ (∀ k now, (casky_get (casky_compact e true).2 (some k) now).1
        = (casky_get e (some k) now).1)
    ∧ parseRecords ((casky_compact e true).2).log
        = (e.kd.root.flatten).map entryRecord
    ∧ (parseRecords ((casky_compact e true).2).log).length = e.kd.num_entries
    ∧ (∀ rec ∈ parseRecords ((casky_compact e true).2).log,
        rec.value_len ≠ 0) := by
  have hlog : ((casky_compact e true).2).log = compactBytes e.kd := rfl
  have hparse : parseRecords (compactBytes e.kd)
      = (e.kd.root.flatten).map entryRecord := by
    by_cases h0 : 0 < e.kd.num_entries
    · have hcb : compactBytes e.kd
          = ((e.kd.root.flatten).map (fun en =>
              casky_write_data_to_file en.key (some en.value)
                en.timestamp en.expiration_ts)).flatten := by
        unfold compactBytes
        rw [if_pos h0]
        exact flatten_map_flatten e.kd.root _
      rw [hcb]
      unfold parseRecords
      apply parseGo_records
      · have hc := count_le_bytes (e.kd.root.flatten)
        omega
      · intro en hen
        exact (hb en hen).2
    · have hflat : e.kd.root.flatten = [] := by
        apply List.length_eq_zero.mp
        rw [List.length_flatten]
        have := hsz.2.2
        omega
      unfold compactBytes
      rw [if_neg h0, hflat]
      simp [parseRecords, parseGo_nil]
  refine ⟨rfl, rfl, fun k now => rfl, ?_, ?_, ?_⟩
  · rw [hlog, hparse]
  · rw [hlog, hparse, List.length_map, List.length_flatten]
    exact hsz.2.2.symm
  · intro rec hrec
    rw [hlog, hparse] at hrec
    obtain ⟨en, hen, heq⟩ := List.mem_map.mp hrec
    subst heq
    show en.value.length ≠ 0
    intro hzero
    exact (hb en hen).1 (List.length_eq_zero.mp hzero)

/-- Witness for C7 (amended): after one `put("a","b")`, compact produces a log
with exactly `num_entries = 1` record. -/
theorem compact_fidelity_witness :
    (parseRecords ((casky_compact
        (casky_put freshEngine (some [97]) (some [98]) 0 5 true).2 true).2).log).length
      = (((casky_put freshEngine (some [97]) (some [98]) 0 5 true).2).kd).num_entries :=
  (compact_fidelity (casky_put freshEngine (some [97]) (some [98]) 0 5 true).2
    (by decide) (by decide)).2.2.2.2.1

end Casky
